import Mathlib

/-!
Shallow embedding of the NoteFlow-Go cross-project task synchronization core:
the note/task parser (`internal/models/note.go`), the per-project note manager
(`internal/services/notemanager.go`), the file storage note splitter
(`internal/storage/file.go`), and the task registry / database service
(`internal/services/taskregistry.go`, `internal/services/database.go`).

Go strings are modelled as `List Char`; Go `int` as `Int` (no overflow occurs in
the modelled flows); wall-clock values (`time.Now`, `time.Time`) as explicit
`now` parameters; the SQLite store as in-memory lists of rows with explicit
auto-increment counters.  Mutating methods on a struct become functions from the
old state to the new state (paired with the `error`/success result where the Go
method returns an error).
-/

set_option maxRecDepth 20000

namespace NoteFlow

/-- Go strings, as their character lists. -/
abbrev Str := List Char

/-- `unicode.IsSpace` restricted to the code points Go's `strings.TrimSpace`
can actually meet and trim (Latin-1 white space). -/
def goSpace (c : Char) : Bool :=
  c = ' ' || c = '\t' || c = '\n' || c = '\x0b' || c = '\x0c' || c = '\r' ||
  c = '\u0085' || c = '\u00A0'

/-- Leading-whitespace trim (left half of `strings.TrimSpace`). -/
def trimLeft : Str → Str
  | [] => []
  | a :: s => if goSpace a then trimLeft s else a :: s

/-- Trailing-whitespace trim (right half of `strings.TrimSpace`). -/
def trimRight : Str → Str
  | [] => []
  | a :: s =>
    let r := trimRight s
    if r = [] then (if goSpace a then [] else [a]) else a :: r

/-- `strings.TrimSpace`. -/
def trimS (s : Str) : Str := trimLeft (trimRight s)

/-- `strings.HasPrefix p s` (does `s` start with `p`). -/
def leads : Str → Str → Bool
  | [], _ => true
  | _ :: _, [] => false
  | a :: p, b :: s => a == b && leads p s

/-- `strings.TrimPrefix s p`: drop `p` from the front of `s` when present. -/
def dropLead (p s : Str) : Str := if leads p s then s.drop p.length else s

/-- `strings.Replace s old new 1`: replace the first (leftmost) occurrence of
`old` in `s` by `new`; `s` unchanged when `old` does not occur. -/
def replFirst (old new : Str) : Str → Str
  | [] => if old = [] then new else []
  | a :: s => if leads old (a :: s) then new ++ (a :: s).drop old.length
              else a :: replFirst old new s

/-- `strings.SplitN s "\n" 2`: the first line and, when a `'\n'` exists,
the remainder after it. -/
def splitFirstLine : Str → Str × Option Str
  | [] => ([], none)
  | a :: s =>
    if a = '\n' then ([], some s)
    else
      let r := splitFirstLine s
      (a :: r.1, r.2)

/-- Fuelled worker for `strings.Split`: each step consumes at least one input
character, so fuel `s.length` always suffices. -/
def splitSepF (sep : Str) : Nat → Str → Str → List Str
  | _, acc, [] => [acc.reverse]
  | 0, acc, s => [acc.reverse ++ s]
  | fuel + 1, acc, a :: s =>
    if leads sep (a :: s) then
      acc.reverse :: splitSepF sep fuel [] (s.drop (sep.length - 1))
    else splitSepF sep fuel (a :: acc) s

/-- `strings.Split s sep` for a nonempty separator. -/
def splitSep (sep s : Str) : List Str := splitSepF sep s.length [] s

/-- `strings.Join`. -/
def joinSep (sep : Str) : List Str → Str
  | [] => []
  | [x] => x
  | x :: xs => x ++ sep ++ joinSep sep xs

/-- `models.NoteSeparator` = `"\n<!-- note -->\n"`. -/
def noteSep : Str := ("\n<!-- note -->\n").data

/-- `models.Task`: global index, completion flag, literal task line text. -/
structure Task where
  Index : Int
  Checked : Bool
  Text : Str
deriving DecidableEq, Repr

/-- The scan of `Note.parseTasks`: Go's regexp `\[([xX ])\]` yields the
leftmost, non-overlapping three-character checkbox matches; for each match the
task is checked iff the captured glyph lowercases to `"x"`, and its text is
`extractTaskText`: the content from the match to the next line break, trimmed.
A failed position advances by one character; a match advances past itself. -/
def parseT : Str → List (Bool × Str)
  | [] => []
  | [_] => []
  | [_, _] => []
  | a :: c :: d :: s2 =>
    if a = '[' ∧ d = ']' then
      if c = 'x' ∨ c = 'X' ∨ c = ' ' then
        (c == 'x' || c == 'X',
          trimS (List.takeWhile (fun ch => ch != '\n') (a :: c :: d :: s2)))
          :: parseT s2
      else parseT (c :: d :: s2)
    else parseT (c :: d :: s2)

/-- The indexing loop of `Note.parseTasks`: task records get consecutive
indices starting from `i` (Go starts at 0). -/
def mkTasks (i : Int) : List (Bool × Str) → List Task
  | [] => []
  | (b, t) :: rest => ⟨i, b, t⟩ :: mkTasks (i + 1) rest

/-- `Note.parseTasks` applied to a content string. -/
def parseTasks (content : Str) : List Task := mkTasks 0 (parseT content)

/-- `models.Note`.  `Timestamp` is modelled as the string form that
`Format("2006-01-02 15:04:05")` would print. -/
structure Note where
  Title : Str
  Content : Str
  Timestamp : Str
  Tasks : List Task
deriving DecidableEq, Repr

/-- `models.NewNote` (timestamp `time.Now()` passed in as `now`). -/
def NewNote (title content : Str) (now : Str) : Note :=
  { Title := title
    Content := content
    Timestamp := now
    Tasks := parseTasks content }

/-- `Note.Update`: set title and content, reparse tasks. -/
def Note.update (n : Note) (title content : Str) : Note :=
  { n with Title := title, Content := content, Tasks := parseTasks content }

/-- `Note.Render`: `## <timestamp>[ - <title>]\n\n<content>\n`. -/
def Note.render (n : Note) : Str :=
  ("## ").data ++ n.Timestamp ++
    (if n.Title = [] then [] else (" - ").data ++ n.Title) ++
    ("\n\n").data ++ n.Content ++ ("\n").data

/-- The loop body of `Note.UpdateTask`: find the first cached task carrying
`taskIndex`; flip the marker inside its literal text (`strings.Replace _ _ _ 1`),
substitute the first occurrence of the old line inside the note content, and
update the cached record.  `none` models the `false` return (no such index). -/
def updTaskList (content : Str) (taskIndex : Int) (checked : Bool) :
    List Task → Option (Str × List Task)
  | [] => none
  | t :: ts =>
    if t.Index = taskIndex then
      let oldMark : Str := if checked then ("[ ]").data else ("[x]").data
      let newMark : Str := if checked then ("[x]").data else ("[ ]").data
      let oldLine := t.Text
      let newLine := replFirst oldMark newMark oldLine
      some (replFirst oldLine newLine content,
            { t with Text := newLine, Checked := checked } :: ts)
    else
      (updTaskList content taskIndex checked ts).map (fun r => (r.1, t :: r.2))

/-- `Note.UpdateTask`: `some` of the updated note when a task with that index
exists (Go returns `true`), otherwise `none` (Go returns `false`). -/
def Note.updateTask (n : Note) (taskIndex : Int) (checked : Bool) : Option Note :=
  (updTaskList n.Content taskIndex checked n.Tasks).map
    (fun r => { n with Content := r.1, Tasks := r.2 })

/-- One character of `\d`. -/
def isDigit (c : Char) : Bool := decide ('0' ≤ c ∧ c ≤ '9')

/-- Shape check for the 19-character timestamp head of the header regexp
`^(\d{4}-\d{2}-\d{2} \d{2}:\d{2}:\d{2})(?: - (.*))?$`. -/
def tsShape (l : Str) : Bool :=
  decide (l.length = 19) &&
  (List.range 19).all (fun i =>
    match l.get? i with
    | some c =>
      if i = 4 ∨ i = 7 then c == '-'
      else if i = 10 then c == ' '
      else if i = 13 ∨ i = 16 then c == ':'
      else isDigit c
    | none => false)

/-- The header regexp of `NewNoteFromText`: on a match, the timestamp string
and the (possibly empty) title. -/
def matchTs (header : Str) : Option (Str × Str) :=
  let ts := header.take 19
  if tsShape ts then
    if header.length = 19 then some (ts, [])
    else if leads (" - ").data (header.drop 19) then some (ts, header.drop 22)
    else none
  else none

def digitVal (c : Char) : Nat := c.toNat - ('0').toNat

def num2 (a b : Char) : Nat := 10 * digitVal a + digitVal b

def leapYear (y : Nat) : Bool := decide ((y % 4 = 0 ∧ ¬ y % 100 = 0) ∨ y % 400 = 0)

def daysIn (y mo : Nat) : Nat :=
  if mo = 2 then (if leapYear y then 29 else 28)
  else if mo = 4 ∨ mo = 6 ∨ mo = 9 ∨ mo = 11 then 30
  else 31

/-- Whether `time.Parse("2006-01-02 15:04:05", ts)` succeeds on a string that
already passed `tsShape` (field ranges of Go's time parser). -/
def validTime (ts : Str) : Bool :=
  match ts with
  | [y1, y2, y3, y4, _, m1, m2, _, d1, d2, _, h1, h2, _, mi1, mi2, _, s1, s2] =>
    let y := 1000 * digitVal y1 + 100 * digitVal y2 + 10 * digitVal y3 + digitVal y4
    let mo := num2 m1 m2
    let d := num2 d1 d2
    decide (1 ≤ mo ∧ mo ≤ 12 ∧ 1 ≤ d ∧ d ≤ daysIn y mo ∧
      num2 h1 h2 ≤ 23 ∧ num2 mi1 mi2 ≤ 59 ∧ num2 s1 s2 ≤ 59)
  | _ => false

/-- `models.NewNoteFromText`.  `time.Now()` is the `now` parameter; an invalid
parsed timestamp falls back to `now` exactly as in the source.  The
`"empty note text"` error branch is unreachable (`strings.SplitN` always
returns at least one element), so the function is total. -/
def noteFromText (text : Str) (now : Str) : Note :=
  let fl := splitFirstLine text
  let header := dropLead ("## ").data fl.1
  let content := match fl.2 with
    | some r => trimS r
    | none => []
  match matchTs header with
  | some (ts, title) =>
    { Title := title
      Content := content
      Timestamp := if validTime ts then ts else now
      Tasks := parseTasks content }
  | none =>
    { Title := header
      Content := content
      Timestamp := now
      Tasks := parseTasks content }

/-- `FileStorage.parseNotes`: split the raw file by `NoteSeparator`, trim each
chunk, skip empty chunks and chunks that do not start with `"## "`, and build a
note from each remaining chunk. -/
def parseNotesFile (content : Str) (now : Str) : List Note :=
  (splitSep noteSep content).filterMap (fun raw =>
    let r := trimS raw
    if r = [] then none
    else if leads ("## ").data r then some (noteFromText r now)
    else none)

/-- `FileStorage.SaveNotes`'s rendering: `strings.Join(rendered, NoteSeparator)`. -/
def renderNotes (notes : List Note) : Str := joinSep noteSep (notes.map Note.render)

/-- `services.NoteManager`: the in-memory note collection, the running global
checkbox counter, the dirty flag, and the persisted `notes.md` content (the
`FileStorage` view). -/
structure NM where
  notes : List Note
  checkboxIndex : Int
  needsSave : Bool
  file : Str
deriving DecidableEq, Repr

/-- `NoteManager.save`: nothing to do when not dirty; otherwise persist and
clear the flag.  `ok` models whether the file write succeeds; on failure the
state is unchanged (the dirty flag stays set) and an error is returned. -/
def NM.save (nm : NM) (ok : Bool) : NM × Bool :=
  if nm.needsSave = false then (nm, true)
  else if ok then ({ nm with file := renderNotes nm.notes, needsSave := false }, true)
  else (nm, false)

/-- The index-assignment loop of `AddNote` / `assignTaskIndices`: give the
tasks consecutive indices from `start`. -/
def assignFrom (start : Int) : List Task → List Task
  | [] => []
  | t :: ts => { t with Index := start } :: assignFrom (start + 1) ts

/-- The note-by-note reassignment loop shared by `assignTaskIndices` and
`reassignTaskIndicesFromNote`: thread the running index through the notes,
returning the final counter value. -/
def assignSeq (i : Int) : List Note → List Note × Int
  | [] => ([], i)
  | n :: ns =>
    let r := assignSeq (i + n.Tasks.length) ns
    ({ n with Tasks := assignFrom i n.Tasks } :: r.1, r.2)

/-- `NoteManager.assignTaskIndices`: renumber every task from 0 in note order
and store the final counter in `checkboxIndex`. -/
def NM.assignTaskIndices (nm : NM) : NM :=
  let r := assignSeq 0 nm.notes
  { nm with notes := r.1, checkboxIndex := r.2 }

/-- Total task count of a note list, as the Go loops see it. -/
def countTasks : List Note → Int
  | [] => 0
  | n :: ns => (n.Tasks.length : Int) + countTasks ns

/-- `NoteManager.reassignTaskIndicesFromNote`: start from the current
`checkboxIndex`, subtract one per task in the notes before `start`
(the counting loop decrements), then renumber from `start` onwards and store
the final counter. -/
def NM.reassignFrom (nm : NM) (start : Nat) : NM :=
  let idx0 := nm.checkboxIndex - countTasks (nm.notes.take start)
  let r := assignSeq idx0 (nm.notes.drop start)
  { nm with notes := nm.notes.take start ++ r.1, checkboxIndex := r.2 }

/-- `NoteManager.loadNotes` via `FileStorage.LoadNotes` on an in-memory file:
parse the stored content and assign global task indices. -/
def loadNM (fileContent : Str) (now : Str) : NM :=
  NM.assignTaskIndices
    { notes := parseNotesFile fileContent now
      checkboxIndex := 0
      needsSave := false
      file := fileContent }

/-- `NoteManager.AddNote`.  The content is the post-`processArchiveLinks`
text (`processArchiveLinks` only rewrites `+http(s)` links via network I/O and
returns contents without such links unchanged, so the embedding takes the
processed content directly).  The new note's tasks continue the
`checkboxIndex` counter; the note is prepended; the collection is persisted. -/
def NM.addNote (nm : NM) (title content : Str) (now : Str) (ok : Bool) : NM × Bool :=
  let note := NewNote title content now
  let note' := { note with Tasks := assignFrom nm.checkboxIndex note.Tasks }
  NM.save
    { nm with
      notes := (note' :: nm.notes)
      checkboxIndex := nm.checkboxIndex + note.Tasks.length
      needsSave := true } ok

/-- `NoteManager.UpdateNote` (content again post-`processArchiveLinks`):
bounds-check, update the note in place, reassign indices from that note on
when the task count changed, persist.  `false` models a returned error. -/
def NM.updateNote (nm : NM) (index : Nat) (title content : Str) (ok : Bool) :
    NM × Bool :=
  if h : index < nm.notes.length then
    let note := nm.notes.get ⟨index, h⟩
    let oldCount := note.Tasks.length
    let note' := note.update title content
    let nm1 := { nm with notes := nm.notes.set index note' }
    let nm2 := if note'.Tasks.length ≠ oldCount then nm1.reassignFrom index else nm1
    NM.save { nm2 with needsSave := true } ok
  else (nm, false)

/-- `NoteManager.DeleteNote`: bounds-check, remove the note, full recount of
all task indices, persist. -/
def NM.deleteNote (nm : NM) (index : Nat) (ok : Bool) : NM × Bool :=
  if index < nm.notes.length then
    let nm1 := NM.assignTaskIndices { nm with notes := nm.notes.eraseIdx index }
    NM.save { nm1 with needsSave := true } ok
  else (nm, false)

/-- The note scan of `NoteManager.UpdateTask`: the first note whose
`Note.UpdateTask` succeeds is replaced; `none` when no note has the index. -/
def updNotes (taskIndex : Int) (checked : Bool) : List Note → Option (List Note)
  | [] => none
  | n :: ns =>
    match n.updateTask taskIndex checked with
    | some n' => some (n' :: ns)
    | none => (updNotes taskIndex checked ns).map (fun l => n :: l)

/-- `NoteManager.UpdateTask`: flip the task with the given global index in
whichever note holds it, mark dirty, persist.  `false` models the
`task with index %d not found` error or a failed save. -/
def NM.updateTask (nm : NM) (taskIndex : Int) (checked : Bool) (ok : Bool) :
    NM × Bool :=
  match updNotes taskIndex checked nm.notes with
  | some notes' => NM.save { nm with notes := notes', needsSave := true } ok
  | none => (nm, false)

/-- The append loop of `NoteManager.GetAllTasks`: tasks in note order then
scan order. -/
def allTasksOf : List Note → List Task
  | [] => []
  | n :: ns => n.Tasks ++ allTasksOf ns

/-- `NoteManager.GetAllTasks`: a snapshot of every cached task, in note order
then scan order. -/
def NM.getAllTasks (nm : NM) : List Task := allTasksOf nm.notes

/-- `NoteManager.HasChanges`. -/
def NM.hasChanges (nm : NM) : Bool := nm.needsSave

/-- A row of the `folders` table. -/
structure FolderRow where
  ID : Int
  Path : Str
  LastScan : Int
  Active : Bool
deriving DecidableEq, Repr

/-- A row of the `tasks` table. -/
structure TaskRow where
  id : Int
  folderId : Int
  filePath : Str
  lineNumber : Int
  content : Str
  completed : Bool
  lastUpdated : Int
deriving DecidableEq, Repr

/-- The SQLite store of `DatabaseService`: the two tables plus the
auto-increment counters for their primary keys. -/
structure DB where
  folders : List FolderRow
  tasks : List TaskRow
  nextFolderId : Int
  nextTaskId : Int
deriving DecidableEq, Repr

/-- `models.GlobalTask` (a `tasks` row joined with its folder's path). -/
structure GlobalTask where
  ID : Int
  FolderID : Int
  FilePath : Str
  LineNumber : Int
  Content : Str
  Completed : Bool
  LastUpdated : Int
  FolderPath : Str
deriving DecidableEq, Repr

/-- Lexicographic byte order on strings (`ORDER BY` on a TEXT column). -/
def strLt : Str → Str → Bool
  | [], [] => false
  | [], _ :: _ => true
  | _ :: _, [] => false
  | a :: x, b :: y => if a = b then strLt x y else decide (a < b)

/-- Insertion of one element into a list sorted by `le` (used to realise the
SQL `ORDER BY` clauses; only the permutation property matters to the claims). -/
def insSorted (le : α → α → Bool) (a : α) : List α → List α
  | [] => [a]
  | b :: l => if le a b then a :: b :: l else b :: insSorted le a l

/-- Insertion sort by `le`. -/
def sortBy (le : α → α → Bool) (l : List α) : List α := l.foldr (insSorted le) []

/-- The `ORDER BY f.path, t.completed, t.last_updated DESC` comparator of
`GetGlobalTasks`. -/
def gtLe (a b : GlobalTask) : Bool :=
  if a.FolderPath ≠ b.FolderPath then strLt a.FolderPath b.FolderPath
  else if a.Completed ≠ b.Completed then a.Completed = false
  else decide (b.LastUpdated ≤ a.LastUpdated)

/-- `DatabaseService.RegisterFolder`: return the existing row for the path
(reactivating it when inactive), or insert a fresh row.  The returned record
is the row as the caller sees it. -/
def RegisterFolder (db : DB) (folderPath : Str) (now : Int) : DB × FolderRow :=
  match db.folders.find? (fun f => f.Path = folderPath) with
  | some f =>
    if f.Active = false then
      ({ db with folders := db.folders.map (fun g =>
          if g.ID = f.ID then { g with Active := true } else g) },
       { f with Active := true })
    else (db, f)
  | none =>
    let f : FolderRow :=
      { ID := db.nextFolderId, Path := folderPath, LastScan := now, Active := true }
    ({ db with
        folders := db.folders ++ [f]
        nextFolderId := db.nextFolderId + 1 }, f)

/-- The rows `DatabaseService.SyncFolderTasks` inserts for a task list:
`file_path` is always `"notes.md"`, `line_number` is the enumeration index,
ids continue the auto-increment counter. -/
def insertRows (firstId : Int) (folderID : Int) (now : Int) : Int → List Task → List TaskRow
  | _, [] => []
  | i, t :: ts =>
    { id := firstId + i, folderId := folderID, filePath := ("notes.md").data,
      lineNumber := i, content := t.Text, completed := t.Checked,
      lastUpdated := now } :: insertRows firstId folderID now (i + 1) ts

/-- `DatabaseService.SyncFolderTasks`: inside one transaction, delete the
folder's task rows, insert the current set, and touch the folder's
`last_scan`.  `txOk` models whether the transaction's steps and commit all
succeed; the deferred `tx.Rollback()` makes any failure leave the store
unchanged, which the embedding reflects by returning the old state with
`false`. -/
def SyncFolderTasks (db : DB) (folderID : Int) (tasks : List Task) (now : Int)
    (txOk : Bool) : DB × Bool :=
  if txOk then
    ({ db with
        tasks := db.tasks.filter (fun t => t.folderId ≠ folderID) ++
          insertRows db.nextTaskId folderID now 0 tasks
        folders := db.folders.map (fun f =>
          if f.ID = folderID then { f with LastScan := now } else f)
        nextTaskId := db.nextTaskId + tasks.length }, true)
  else (db, false)

/-- The join of `GetGlobalTasks`: every `tasks` row paired with each active
folder row carrying its `folder_id`, ordered by the SQL `ORDER BY`. -/
def GetGlobalTasks (db : DB) : List GlobalTask :=
  sortBy gtLe (db.tasks.flatMap (fun t =>
    (db.folders.filter (fun f => f.ID = t.folderId ∧ f.Active = true)).map (fun f =>
      { ID := t.id, FolderID := t.folderId, FilePath := t.filePath,
        LineNumber := t.lineNumber, Content := t.content,
        Completed := t.completed, LastUpdated := t.lastUpdated,
        FolderPath := f.Path })))

/-- `DatabaseService.UpdateTaskCompletion`: set the flag and timestamp of the
row with the given id. -/
def UpdateTaskCompletion (db : DB) (taskID : Int) (completed : Bool) (now : Int) : DB :=
  { db with tasks := db.tasks.map (fun t =>
      if t.id = taskID then { t with completed := completed, lastUpdated := now } else t) }

/-- `DatabaseService.GetActiveFolders`: the active rows, `ORDER BY path`. -/
def GetActiveFolders (db : DB) : List FolderRow :=
  sortBy (fun a b => strLt a.Path b.Path || a.Path == b.Path)
    (db.folders.filter (fun f => f.Active = true))

/-- `DatabaseService.RemoveFolder`: transactionally delete the folder's task
rows and the folder row itself (success path; failures are logged and skipped
by the callers that matter to the claims). -/
def RemoveFolder (db : DB) (folderID : Int) : DB :=
  { db with
    tasks := db.tasks.filter (fun t => t.folderId ≠ folderID)
    folders := db.folders.filter (fun f => f.ID ≠ folderID) }

/-- `TaskRegistryService`: the database plus the folder-path → note-manager
map (modelled as an association list, unique keys as a Go map guarantees). -/
structure TRS where
  db : DB
  managers : List (Str × NM)
deriving DecidableEq, Repr

/-- Go map lookup `trs.noteManagers[path]`. -/
def lookupNM (managers : List (Str × NM)) (path : Str) : Option NM :=
  (managers.find? (fun e => e.1 = path)).map (fun e => e.2)

/-- Go map store `trs.noteManagers[path] = nm` for an existing key. -/
def setNM (managers : List (Str × NM)) (path : Str) (nm : NM) : List (Str × NM) :=
  managers.map (fun e => if e.1 = path then (path, nm) else e)

/-- `TaskRegistryService.UpdateGlobalTaskCompletion`: resolve the global task
by id (error when absent), update the index row, then best-effort propagate:
if a manager is registered for the owning folder and some current task's
literal text equals the recorded content, toggle that task in the store (the
store error, if any, is only logged); a text miss silently skips propagation.
`okSave` models the store's file write succeeding. -/
def UpdateGlobalTaskCompletion (trs : TRS) (taskID : Int) (completed : Bool)
    (now : Int) (okSave : Bool) : TRS × Bool :=
  match (GetGlobalTasks trs.db).find? (fun t => t.ID = taskID) with
  | none => (trs, false)
  | some target =>
    let db1 := UpdateTaskCompletion trs.db taskID completed now
    match lookupNM trs.managers target.FolderPath with
    | none => ({ trs with db := db1 }, true)
    | some nm =>
      match (NM.getAllTasks nm).find? (fun t => t.Text = target.Content) with
      | none => ({ trs with db := db1 }, true)
      | some t =>
        let nm1 := (NM.updateTask nm t.Index completed okSave).1
        ({ db := db1, managers := setNM trs.managers target.FolderPath nm1 }, true)

/-- `TaskRegistryService.validateFolder`: the folder directory and its
`notes.md` must both exist.  `fs` is the file-system oracle (`os.Stat`
succeeding). -/
def validateFolder (fs : Str → Bool) (folderPath : Str) : Bool :=
  fs folderPath && fs (folderPath ++ ("/notes.md").data)

/-- The folder loop of `performBackgroundSync`: invalid folders are staged in
`rem` (removal is deferred past the iteration); valid folders with a
registered manager are re-synced when dirty or stale
(`time.Since(last_scan) > 5*time.Minute`, with the tick at 30 time-units
modelling seconds).  Per-folder sync errors are logged and skipped, so sync
steps are taken on the success path. -/
def syncPass (managers : List (Str × NM)) (fs : Str → Bool) (now : Int)
    (stale : Int) : List FolderRow → DB → List Int → DB × List Int
  | [], db, rem => (db, rem)
  | folder :: rest, db, rem =>
    if validateFolder fs folder.Path = false then
      syncPass managers fs now stale rest db (rem ++ [folder.ID])
    else
      match lookupNM managers folder.Path with
      | none => syncPass managers fs now stale rest db rem
      | some nm =>
        if NM.hasChanges nm = true ∨ now - folder.LastScan > stale then
          syncPass managers fs now stale rest
            (SyncFolderTasks db folder.ID (NM.getAllTasks nm) now true).1 rem
        else syncPass managers fs now stale rest db rem

/-- `TaskRegistryService.performBackgroundSync`: snapshot the active folders,
run the staging/sync pass, then remove every staged folder. -/
def performBackgroundSync (trs : TRS) (fs : Str → Bool) (now : Int) : TRS :=
  let folders := GetActiveFolders trs.db
  let r := syncPass trs.managers fs now 300 folders trs.db []
  { trs with db := r.2.foldl RemoveFolder r.1 }

/-- The integers `s, s+1, …, s+len-1` (for stating index contiguity). -/
def intRange (s : Int) : Nat → List Int
  | 0 => []
  | n + 1 => s :: intRange (s + 1) n

/-- The note file of the single-note scenarios (C1, C2, C10 witnesses). -/
def oneTaskFile : Str := ("## 2025-01-07 10:00:00 - A\n\n- [ ] t1").data

/-- The note file of the C6 scenario, exactly as the spec writes it. -/
def demoFile : Str :=
  ("## 2025-01-07 10:00:00 - Demo\n\n- [ ] write spec\n- [x] draft outline\n").data

/-- A fixed `time.Now()` stand-in for concrete scenarios. -/
def nowS : Str := ("2025-06-01 00:00:00").data

/-- A loaded one-task store used by concrete scenarios. -/
def oneTaskNM : NM := loadNM oneTaskFile nowS

/-! ## General helper lemmas -/

theorem filter_none {α} (p : α → Bool) :
    ∀ l : List α, (∀ a ∈ l, p a = false) → l.filter p = []
  | [], _ => rfl
  | a :: t, h => by
    have ha := h a (by simp)
    simp only [List.filter, ha]
    exact filter_none p t (fun b hb => h b (by simp [hb]))

theorem filter_all {α} (p : α → Bool) :
    ∀ l : List α, (∀ a ∈ l, p a = true) → l.filter p = l
  | [], _ => rfl
  | a :: t, h => by
    have ha := h a (by simp)
    simp only [List.filter, ha]
    exact congrArg (List.cons a) (filter_all p t (fun b hb => h b (by simp [hb])))

theorem save_notes (nm : NM) (ok : Bool) : ((NM.save nm ok).1).notes = nm.notes := by
  unfold NM.save
  split
  · rfl
  · split <;> rfl

theorem save_cb (nm : NM) (ok : Bool) :
    ((NM.save nm ok).1).checkboxIndex = nm.checkboxIndex := by
  unfold NM.save
  split
  · rfl
  · split <;> rfl

/-! ## Claim theorems: C6, C1, C2, C4 -/

/-- C6: loading a note file whose content is exactly
`## 2025-01-07 10:00:00 - Demo\n\n- [ ] write spec\n- [x] draft outline\n`
yields exactly one note with exactly two tasks, at indices 0 and 1, the first
unchecked and the second checked. -/
theorem C6_demo_load :
    (loadNM demoFile nowS).notes.map (fun n => n.Tasks.map (fun t => (t.Index, t.Checked)))
      = [[((0 : Int), false), (1, true)]] := by decide

/-- C1: evaluation of the code at the failing input.  A store loaded with a
single note holding one task (index 0, `checkboxIndex = 1`) is given
`updateNote 0` with new content holding two tasks.  The claimed invariant
demands indices `[0, 1]`; `reassignTaskIndicesFromNote` instead starts from
`checkboxIndex - (tasks before note 0) = 1` and produces `[1, 2]`, leaving a
collection with no task of index 0. -/
theorem C1_update_note_gap :
    ((NM.updateNote oneTaskNM 0 ("A").data ("- [ ] a\n- [ ] b").data true).1.getAllTasks).map
        Task.Index = [1, 2]
    ∧ (0 : Int) ∉
        ((NM.updateNote oneTaskNM 0 ("A").data ("- [ ] a\n- [ ] b").data true).1.getAllTasks).map
          Task.Index := by decide

/-- C2 counterexample: a completion toggle against a project store that
returns successfully does NOT leave the store dirty — `UpdateTask` persists
within the call and `save` clears `needsSave`, so `hasUnsavedChanges()` is
false immediately after the successful toggle. -/
theorem C2_counterexample :
    (NM.updateTask oneTaskNM 0 true true).2 = true
    ∧ NM.hasChanges (NM.updateTask oneTaskNM 0 true true).1 = false := by decide

/-- C2 (amended): a successful `updateTask` has already persisted the change,
so `hasUnsavedChanges()` is false after it returns; when the task exists but
the persist step fails, the mutation is retained in memory and
`hasUnsavedChanges()` stays true until the next successful persist; when no
task carries the index, the state is unchanged and an error is returned. -/
theorem C2_dirty_flag (nm : NM) (idx : Int) (ch : Bool) :
    (∀ ok, (NM.updateTask nm idx ch ok).2 = true →
      NM.hasChanges (NM.updateTask nm idx ch ok).1 = false)
    ∧ (¬ updNotes idx ch nm.notes = none →
        NM.hasChanges (NM.updateTask nm idx ch false).1 = true
        ∧ (NM.updateTask nm idx ch false).2 = false)
    ∧ (updNotes idx ch nm.notes = none → ∀ ok, NM.updateTask nm idx ch ok = (nm, false)) := by
  cases h : updNotes idx ch nm.notes with
  | none =>
    refine ⟨?_, ?_, ?_⟩ <;> simp [NM.updateTask, h, NM.hasChanges]
  | some l =>
    refine ⟨?_, ?_, ?_⟩
    · intro ok
      cases ok <;> simp [NM.updateTask, h, NM.save, NM.hasChanges]
    · intro _
      simp [NM.updateTask, h, NM.save, NM.hasChanges]
    · intro hc
      exact absurd hc (by simp [h])

/-- C2 witness: at the concrete one-task store, the task exists, and a toggle
whose persist step fails leaves the store dirty with an error returned. -/
theorem C2_dirty_flag_witness :
    ¬ updNotes 0 true oneTaskNM.notes = none
    ∧ (NM.hasChanges (NM.updateTask oneTaskNM 0 true false).1 = true
        ∧ (NM.updateTask oneTaskNM 0 true false).2 = false) :=
  ⟨by decide, (C2_dirty_flag oneTaskNM 0 true).2.1 (by decide)⟩

theorem insertRows_folderId (firstId fid now : Int) :
    ∀ i ts, ∀ r ∈ insertRows firstId fid now i ts, r.folderId = fid := by
  intro i ts
  induction ts generalizing i with
  | nil => intro r hr; cases hr
  | cons t ts ih =>
    intro r hr
    rcases List.mem_cons.mp hr with hr | hr
    · subst hr; rfl
    · exact ih _ r hr

/-- C4: `SyncFolderTasks` is a transactional full replace.  On success the
folder's rows are exactly the freshly inserted set and every other folder's
rows are untouched; on any failure inside the transaction the deferred
rollback leaves the whole store exactly as it was (no partial replace is
observable). -/
theorem C4_replace_transactional (db : DB) (fid : Int) (tasks : List Task) (now : Int) :
    ((SyncFolderTasks db fid tasks now true).1.tasks.filter (fun t => t.folderId = fid)
        = insertRows db.nextTaskId fid now 0 tasks
      ∧ (SyncFolderTasks db fid tasks now true).1.tasks.filter (fun t => t.folderId ≠ fid)
        = db.tasks.filter (fun t => t.folderId ≠ fid)
      ∧ (SyncFolderTasks db fid tasks now true).2 = true)
    ∧ SyncFolderTasks db fid tasks now false = (db, false) := by
  have h1 : (db.tasks.filter (fun t => t.folderId ≠ fid)).filter
      (fun t => t.folderId = fid) = [] := by
    refine filter_none _ _ (fun a ha => ?_)
    rw [List.mem_filter] at ha
    have := ha.2
    simp only [ne_eq, decide_not, Bool.not_eq_true', decide_eq_false_iff_not,
      Bool.not_eq_false, decide_eq_true_eq] at this ⊢
    exact this
  have h2 : (insertRows db.nextTaskId fid now 0 tasks).filter
      (fun t => t.folderId = fid) = insertRows db.nextTaskId fid now 0 tasks := by
    refine filter_all _ _ (fun a ha => ?_)
    simp only [decide_eq_true_eq]
    exact insertRows_folderId db.nextTaskId fid now 0 tasks a ha
  have h3 : (db.tasks.filter (fun t => t.folderId ≠ fid)).filter
      (fun t => t.folderId ≠ fid) = db.tasks.filter (fun t => t.folderId ≠ fid) := by
    refine filter_all _ _ (fun a ha => ?_)
    rw [List.mem_filter] at ha
    exact ha.2
  have h4 : (insertRows db.nextTaskId fid now 0 tasks).filter
      (fun t => t.folderId ≠ fid) = [] := by
    refine filter_none _ _ (fun a ha => ?_)
    have hfid := insertRows_folderId db.nextTaskId fid now 0 tasks a ha
    simp [hfid]
  refine ⟨⟨?_, ?_, rfl⟩, rfl⟩
  · show ((db.tasks.filter (fun t => t.folderId ≠ fid) ++
        insertRows db.nextTaskId fid now 0 tasks).filter (fun t => t.folderId = fid)) = _
    rw [List.filter_append, h1, h2, List.nil_append]
  · show ((db.tasks.filter (fun t => t.folderId ≠ fid) ++
        insertRows db.nextTaskId fid now 0 tasks).filter (fun t => t.folderId ≠ fid)) = _
    rw [List.filter_append, h3, h4, List.append_nil]

theorem mkTasks_length (i : Int) (l : List (Bool × Str)) :
    (mkTasks i l).length = l.length := by
  induction l generalizing i with
  | nil => rfl
  | cons p rest ih =>
    cases p
    simp [mkTasks, ih]

theorem assignFrom_map (s : Int) (ts : List Task) :
    (assignFrom s ts).map Task.Index = intRange s ts.length := by
  induction ts generalizing s with
  | nil => rfl
  | cons t ts ih => simp [assignFrom, intRange, ih]

theorem intRange_append (s : Int) (a b : Nat) :
    intRange s (a + b) = intRange s a ++ intRange (s + a) b := by
  induction a generalizing s with
  | zero => simp [intRange]
  | succ a ih =>
    have h1 : a + 1 + b = (a + b) + 1 := by omega
    have h3 : ((a + 1 : Nat) : Int) = (a : Int) + 1 := by push_cast; ring
    rw [h1, h3]
    show s :: intRange (s + 1) (a + b) = (s :: intRange (s + 1) a) ++
      intRange (s + ((a : Int) + 1)) b
    have h4 : s + ((a : Int) + 1) = (s + 1) + (a : Int) := by ring
    rw [ih (s + 1), List.cons_append, h4]

theorem mem_intRange_self (s : Int) (k : Nat) (hk : 1 ≤ k) : s ∈ intRange s k := by
  cases k with
  | zero => omega
  | succ k => exact List.mem_cons_self s _

/-- C10: `addNote` with `k ≥ 1` tasks prepends the new note but numbers its
tasks from the previous total `n` (indices `n … n+k-1`); `getAllTasks`
therefore returns the index sequence `[n…n+k-1] ++ [0…n-1]`, a permutation of
`0 … n+k-1` that is not ascending whenever the older notes contain tasks. -/
theorem C10_add_note_numbering (nm : NM) (title content now : Str) (ok : Bool) (n k : Nat)
    (h1 : (NM.getAllTasks nm).map Task.Index = intRange 0 n)
    (h2 : nm.checkboxIndex = (n : Int))
    (h3 : (parseT content).length = k)
    (h4 : 1 ≤ k) :
    ((NM.getAllTasks (NM.addNote nm title content now ok).1).map Task.Index
        = intRange (n : Int) k ++ intRange 0 n)
    ∧ List.Perm ((NM.getAllTasks (NM.addNote nm title content now ok).1).map Task.Index)
        (intRange 0 (n + k))
    ∧ (1 ≤ n → ¬ List.Sorted (· ≤ ·)
        ((NM.getAllTasks (NM.addNote nm title content now ok).1).map Task.Index)) := by
  have hnotes : ((NM.addNote nm title content now ok).1).notes
      = { NewNote title content now with
          Tasks := assignFrom nm.checkboxIndex (NewNote title content now).Tasks } :: nm.notes := by
    unfold NM.addNote
    rw [save_notes]
  have key : (NM.getAllTasks (NM.addNote nm title content now ok).1).map Task.Index
      = intRange (n : Int) k ++ intRange 0 n := by
    show (allTasksOf ((NM.addNote nm title content now ok).1).notes).map Task.Index = _
    rw [hnotes]
    show ((assignFrom nm.checkboxIndex (NewNote title content now).Tasks) ++
        allTasksOf nm.notes).map Task.Index = _
    rw [List.map_append, assignFrom_map, h2]
    have hlen : (NewNote title content now).Tasks.length = k := by
      show (parseTasks content).length = k
      rw [parseTasks, mkTasks_length]
      exact h3
    rw [hlen]
    have h1x : (allTasksOf nm.notes).map Task.Index = intRange 0 n := h1
    rw [h1x]
  refine ⟨key, ?_, ?_⟩
  · rw [key]
    have hsplit : intRange 0 (n + k) = intRange 0 n ++ intRange (n : Int) k := by
      rw [intRange_append 0 n k]
      norm_num
    rw [hsplit]
    exact List.perm_append_comm
  · intro hn hs
    rw [key] at hs
    have hp := List.pairwise_append.mp hs
    have hle := hp.2.2 (n : Int) (mem_intRange_self _ _ h4) 0 (mem_intRange_self _ _ hn)
    omega

/-- C10 witness: the one-task store (`n = 1`), adding a note with one task. -/
theorem C10_add_note_numbering_witness :
    ((NM.getAllTasks oneTaskNM).map Task.Index = intRange 0 1
      ∧ oneTaskNM.checkboxIndex = ((1 : Nat) : Int)
      ∧ (parseT ("- [ ] a").data).length = 1
      ∧ 1 ≤ 1)
    ∧ (((NM.getAllTasks (NM.addNote oneTaskNM ("B").data ("- [ ] a").data nowS true).1).map
          Task.Index = intRange ((1 : Nat) : Int) 1 ++ intRange 0 1)
      ∧ List.Perm
          ((NM.getAllTasks (NM.addNote oneTaskNM ("B").data ("- [ ] a").data nowS true).1).map
            Task.Index) (intRange 0 (1 + 1))
      ∧ ¬ List.Sorted (· ≤ ·)
          ((NM.getAllTasks (NM.addNote oneTaskNM ("B").data ("- [ ] a").data nowS true).1).map
            Task.Index)) :=
  ⟨⟨by decide, by decide, by decide, by decide⟩,
   (C10_add_note_numbering oneTaskNM (("B").data) (("- [ ] a").data) nowS true 1 1
     (by decide) (by decide) (by decide) (by decide)).1,
   (C10_add_note_numbering oneTaskNM (("B").data) (("- [ ] a").data) nowS true 1 1
     (by decide) (by decide) (by decide) (by decide)).2.1,
   (C10_add_note_numbering oneTaskNM (("B").data) (("- [ ] a").data) nowS true 1 1
     (by decide) (by decide) (by decide) (by decide)).2.2 (by decide)⟩

theorem map_id_of {α} (f : α → α) :
    ∀ l : List α, (∀ a ∈ l, f a = a) → l.map f = l
  | [], _ => rfl
  | a :: t, h => by
    rw [List.map_cons, h a (by simp),
      map_id_of f t (fun b hb => h b (by simp [hb]))]

/-- C8: `RegisterFolder` on a path that already has a row is idempotent: it
returns the existing row (active), flips only that row's `active` flag, adds
no new row (length and auto-increment counter unchanged), and touches no task
rows. -/
theorem C8_register_idempotent (db : DB) (p : Str) (now : Int) (f0 : FolderRow)
    (hmem : f0 ∈ db.folders) (hpath : f0.Path = p)
    (hpuniq : ∀ g ∈ db.folders, g.Path = p → g = f0)
    (hiduniq : ∀ g ∈ db.folders, g.ID = f0.ID → g = f0) :
    (RegisterFolder db p now).2 = { f0 with Active := true }
    ∧ (RegisterFolder db p now).1.folders
        = db.folders.map (fun g => if g.ID = f0.ID then { g with Active := true } else g)
    ∧ (RegisterFolder db p now).1.folders.length = db.folders.length
    ∧ (RegisterFolder db p now).1.tasks = db.tasks
    ∧ (RegisterFolder db p now).1.nextFolderId = db.nextFolderId := by
  have hfind : db.folders.find? (fun f => f.Path = p) = some f0 := by
    cases hf : db.folders.find? (fun f => f.Path = p) with
    | none =>
      rw [List.find?_eq_none] at hf
      exact absurd (by simpa using hf f0 hmem) (by simp [hpath])
    | some g =>
      have hg1 := List.find?_some hf
      have hg2 := List.mem_of_find?_eq_some hf
      exact congrArg some (hpuniq g hg2 (by simpa using hg1))
  cases hA : f0.Active with
  | false =>
    have : RegisterFolder db p now =
        ({ db with folders := db.folders.map (fun g =>
            if g.ID = f0.ID then { g with Active := true } else g) },
         { f0 with Active := true }) := by
      unfold RegisterFolder
      rw [hfind]
      simp [hA]
    rw [this]
    exact ⟨rfl, rfl, by simp, rfl, rfl⟩
  | true =>
    have heq : ({ f0 with Active := true } : FolderRow) = f0 := by
      cases f0
      simp_all
    have hid : db.folders.map (fun g =>
        if g.ID = f0.ID then { g with Active := true } else g) = db.folders := by
      refine map_id_of _ _ (fun g hg => ?_)
      by_cases hgid : g.ID = f0.ID
      · rw [if_pos hgid, hiduniq g hg hgid, heq]
      · rw [if_neg hgid]
    have : RegisterFolder db p now = (db, f0) := by
      unfold RegisterFolder
      rw [hfind]
      simp [hA]
    rw [this, hid, heq]
    exact ⟨rfl, rfl, rfl, rfl, rfl⟩

/-- C8 witness: a store holding one inactive row for path `p`. -/
theorem C8_register_idempotent_witness :
    ((⟨1, ("p").data, 0, false⟩ : FolderRow) ∈
        (⟨[⟨1, ("p").data, 0, false⟩], [], 2, 1⟩ : DB).folders
      ∧ (⟨1, ("p").data, 0, false⟩ : FolderRow).Path = ("p").data
      ∧ (∀ g ∈ (⟨[⟨1, ("p").data, 0, false⟩], [], 2, 1⟩ : DB).folders,
          g.Path = ("p").data → g = ⟨1, ("p").data, 0, false⟩)
      ∧ (∀ g ∈ (⟨[⟨1, ("p").data, 0, false⟩], [], 2, 1⟩ : DB).folders,
          g.ID = (⟨1, ("p").data, 0, false⟩ : FolderRow).ID → g = ⟨1, ("p").data, 0, false⟩))
    ∧ (RegisterFolder (⟨[⟨1, ("p").data, 0, false⟩], [], 2, 1⟩ : DB) (("p").data) 7).2
        = { (⟨1, ("p").data, 0, false⟩ : FolderRow) with Active := true } :=
  ⟨⟨by decide, by decide, by decide, by decide⟩,
   (C8_register_idempotent (⟨[⟨1, ("p").data, 0, false⟩], [], 2, 1⟩ : DB) (("p").data) 7
      ⟨1, ("p").data, 0, false⟩ (by decide) (by decide) (by decide) (by decide)).1⟩

theorem insSorted_perm {α} (le : α → α → Bool) (a : α) :
    ∀ l : List α, List.Perm (insSorted le a l) (a :: l)
  | [] => List.Perm.refl _
  | b :: l => by
    unfold insSorted
    split
    · exact List.Perm.refl _
    · exact List.Perm.trans (List.Perm.cons b (insSorted_perm le a l))
        (List.Perm.swap a b l)

theorem sortBy_perm {α} (le : α → α → Bool) :
    ∀ l : List α, List.Perm (sortBy le l) l
  | [] => List.Perm.refl _
  | a :: l =>
    List.Perm.trans (insSorted_perm le a (sortBy le l))
      (List.Perm.cons a (sortBy_perm le l))

theorem removeFolder_self (db : DB) (x : Int) :
    (∀ g ∈ (RemoveFolder db x).folders, g.ID ≠ x)
    ∧ (∀ r ∈ (RemoveFolder db x).tasks, r.folderId ≠ x) := by
  constructor
  · intro g hg
    have := (List.mem_filter.mp hg).2
    simpa using this
  · intro r hr
    have := (List.mem_filter.mp hr).2
    simpa using this

theorem removeFolder_pres (db : DB) (x y : Int)
    (h1 : ∀ g ∈ db.folders, g.ID ≠ x) (h2 : ∀ r ∈ db.tasks, r.folderId ≠ x) :
    (∀ g ∈ (RemoveFolder db y).folders, g.ID ≠ x)
    ∧ (∀ r ∈ (RemoveFolder db y).tasks, r.folderId ≠ x) := by
  constructor
  · intro g hg
    exact h1 g (List.mem_filter.mp hg).1
  · intro r hr
    exact h2 r (List.mem_filter.mp hr).1

theorem foldl_remove_pres (x : Int) :
    ∀ (ids : List Int) (db : DB),
    (∀ g ∈ db.folders, g.ID ≠ x) → (∀ r ∈ db.tasks, r.folderId ≠ x) →
    (∀ g ∈ (ids.foldl RemoveFolder db).folders, g.ID ≠ x)
    ∧ (∀ r ∈ (ids.foldl RemoveFolder db).tasks, r.folderId ≠ x)
  | [], _, h1, h2 => ⟨h1, h2⟩
  | y :: t, db, h1, h2 => by
    have hp := removeFolder_pres db x y h1 h2
    exact foldl_remove_pres x t (RemoveFolder db y) hp.1 hp.2

theorem foldl_remove_mem (x : Int) :
    ∀ (ids : List Int) (db : DB), x ∈ ids →
    (∀ g ∈ (ids.foldl RemoveFolder db).folders, g.ID ≠ x)
    ∧ (∀ r ∈ (ids.foldl RemoveFolder db).tasks, r.folderId ≠ x)
  | [], _, hx => absurd hx (by simp)
  | y :: t, db, hx => by
    by_cases hxy : x = y
    · subst hxy
      have hs := removeFolder_self db x
      exact foldl_remove_pres x t (RemoveFolder db x) hs.1 hs.2
    · have : x ∈ t := by
        rcases List.mem_cons.mp hx with h | h
        · exact absurd h hxy
        · exact h
      exact foldl_remove_mem x t (RemoveFolder db y) this

theorem syncPass_stages (managers : List (Str × NM)) (fs : Str → Bool) (now stale : Int) :
    ∀ (folders : List FolderRow) (db : DB) (rem : List Int) (x : Int),
    (x ∈ rem ∨ ∃ f ∈ folders, validateFolder fs f.Path = false ∧ f.ID = x) →
    x ∈ (syncPass managers fs now stale folders db rem).2
  | [], db, rem, x, hx => by
    rcases hx with hx | ⟨f, hf, _⟩
    · simpa [syncPass] using hx
    · cases hf
  | folder :: rest, db, rem, x, hx => by
    by_cases hval : validateFolder fs folder.Path = false
    · have hrec : x ∈ rem ++ [folder.ID] ∨
          ∃ f ∈ rest, validateFolder fs f.Path = false ∧ f.ID = x := by
        rcases hx with hx | ⟨f, hf, hfv, hfx⟩
        · exact Or.inl (by simp [hx])
        · rcases List.mem_cons.mp hf with h | h
          · subst h
            exact Or.inl (by simp [hfx])
          · exact Or.inr ⟨f, h, hfv, hfx⟩
      have hih := syncPass_stages managers fs now stale rest db (rem ++ [folder.ID]) x hrec
      simpa [syncPass, hval] using hih
    · have hvt : validateFolder fs folder.Path = true := by
        cases hbool : validateFolder fs folder.Path
        · exact absurd hbool hval
        · rfl
      have hrec : x ∈ rem ∨
          ∃ f ∈ rest, validateFolder fs f.Path = false ∧ f.ID = x := by
        rcases hx with hx | ⟨f, hf, hfv, hfx⟩
        · exact Or.inl hx
        · rcases List.mem_cons.mp hf with h | h
          · subst h
            exact absurd hfv hval
          · exact Or.inr ⟨f, h, hfv, hfx⟩
      cases hL : lookupNM managers folder.Path with
      | none =>
        have hih := syncPass_stages managers fs now stale rest db rem x hrec
        simpa [syncPass, hvt, hL] using hih
      | some nm =>
        by_cases hcond : NM.hasChanges nm = true ∨ now - folder.LastScan > stale
        · have hih := syncPass_stages managers fs now stale rest
            (SyncFolderTasks db folder.ID (NM.getAllTasks nm) now true).1 rem x hrec
          simpa [syncPass, hvt, hL, hcond] using hih
        · have hih := syncPass_stages managers fs now stale rest db rem x hrec
          simpa [syncPass, hvt, hL, hcond] using hih

/-- C7: a registered, active project whose directory or note file no longer
exists at a scheduled tick is staged during the sync pass and removed after
the full scan: no folder row with its id survives, all of its task rows are
deleted (the cascade), and it no longer appears among the active folders. -/
theorem C7_stale_project_removed (trs : TRS) (fs : Str → Bool) (now : Int) (f : FolderRow)
    (hmem : f ∈ trs.db.folders) (hact : f.Active = true)
    (hinv : validateFolder fs f.Path = false) :
    ((performBackgroundSync trs fs now).db.folders.all (fun g => g.ID ≠ f.ID) = true)
    ∧ ((performBackgroundSync trs fs now).db.tasks.all (fun r => r.folderId ≠ f.ID) = true)
    ∧ ((GetActiveFolders (performBackgroundSync trs fs now).db).all
        (fun g => g.ID ≠ f.ID) = true) := by
  have hmemA : f ∈ GetActiveFolders trs.db := by
    unfold GetActiveFolders
    rw [(sortBy_perm _ _).mem_iff, List.mem_filter]
    exact ⟨hmem, by simp [hact]⟩
  have hx : f.ID ∈ (syncPass trs.managers fs now 300 (GetActiveFolders trs.db) trs.db []).2 :=
    syncPass_stages trs.managers fs now 300 (GetActiveFolders trs.db) trs.db [] f.ID
      (Or.inr ⟨f, hmemA, hinv, rfl⟩)
  have hmain := foldl_remove_mem f.ID
    (syncPass trs.managers fs now 300 (GetActiveFolders trs.db) trs.db []).2
    (syncPass trs.managers fs now 300 (GetActiveFolders trs.db) trs.db []).1 hx
  have hdb : (performBackgroundSync trs fs now).db
      = (syncPass trs.managers fs now 300 (GetActiveFolders trs.db) trs.db []).2.foldl
          RemoveFolder
          (syncPass trs.managers fs now 300 (GetActiveFolders trs.db) trs.db []).1 := rfl
  refine ⟨?_, ?_, ?_⟩
  · rw [List.all_eq_true]
    intro g hg
    rw [hdb] at hg
    simpa using hmain.1 g hg
  · rw [List.all_eq_true]
    intro r hr
    rw [hdb] at hr
    simpa using hmain.2 r hr
  · rw [List.all_eq_true]
    intro g hg
    unfold GetActiveFolders at hg
    rw [(sortBy_perm _ _).mem_iff, List.mem_filter] at hg
    have hg1 := hg.1
    rw [hdb] at hg1
    simpa using hmain.1 g hg1

/-- A one-project registry whose folder has vanished from disk (C7 witness). -/
def staleRow : FolderRow := ⟨1, ("p").data, 0, true⟩

def staleTRS : TRS :=
  ⟨⟨[staleRow], [⟨1, 1, ("notes.md").data, 0, ("[ ] a").data, false, 0⟩], 2, 2⟩, []⟩

/-- C7 witness: a registered project with two persisted rows whose folder no
longer exists; the tick removes the folder row and its task rows. -/
theorem C7_stale_project_removed_witness :
    (staleRow ∈ staleTRS.db.folders
      ∧ staleRow.Active = true
      ∧ validateFolder (fun _ => false) staleRow.Path = false)
    ∧ (((performBackgroundSync staleTRS (fun _ => false) 0).db.folders.all
          (fun g => g.ID ≠ staleRow.ID) = true)
      ∧ ((performBackgroundSync staleTRS (fun _ => false) 0).db.tasks.all
          (fun r => r.folderId ≠ staleRow.ID) = true)
      ∧ ((GetActiveFolders (performBackgroundSync staleTRS (fun _ => false) 0).db).all
          (fun g => g.ID ≠ staleRow.ID) = true)) :=
  ⟨⟨by decide, by decide, by decide⟩,
   C7_stale_project_removed staleTRS (fun _ => false) 0 staleRow
     (by decide) (by decide) (by decide)⟩

theorem updTaskList_none (content : Str) (idx : Int) (ch : Bool) :
    ∀ ts : List Task, (∀ tk ∈ ts, tk.Index ≠ idx) → updTaskList content idx ch ts = none
  | [], _ => rfl
  | t :: ts, h => by
    have ht : ¬ t.Index = idx := h t (by simp)
    simp only [updTaskList, if_neg ht]
    rw [updTaskList_none content idx ch ts (fun tk hk => h tk (by simp [hk]))]
    rfl

theorem updTaskList_cons_eq (content : Str) (ch : Bool) (t0 : Task) (ts : List Task) :
    updTaskList content t0.Index ch (t0 :: ts)
      = some (replFirst t0.Text
            (replFirst (if ch then ("[ ]").data else ("[x]").data)
              (if ch then ("[x]").data else ("[ ]").data) t0.Text) content,
          { t0 with
            Text := replFirst (if ch then ("[ ]").data else ("[x]").data)
              (if ch then ("[x]").data else ("[ ]").data) t0.Text
            Checked := ch } :: ts) := by
  simp [updTaskList]

theorem updTaskList_cons_ne (content : Str) (idx : Int) (ch : Bool) (t0 : Task)
    (ts : List Task) (h : ¬ t0.Index = idx) :
    updTaskList content idx ch (t0 :: ts)
      = (updTaskList content idx ch ts).map (fun r => (r.1, t0 :: r.2)) := by
  simp only [updTaskList, if_neg h]

theorem updTaskList_found (content : Str) (ch : Bool) (t : Task) :
    ∀ ts : List Task, t ∈ ts → (ts.map Task.Index).Nodup →
    ∃ ts2, updTaskList content t.Index ch ts
      = some (replFirst t.Text
          (replFirst (if ch then ("[ ]").data else ("[x]").data)
            (if ch then ("[x]").data else ("[ ]").data) t.Text) content, ts2)
  | [], hmem, _ => absurd hmem (by simp)
  | t0 :: ts, hmem, hnd => by
    by_cases h0 : t0.Index = t.Index
    · have ht0 : t0 = t := by
        rcases List.mem_cons.mp hmem with h | h
        · exact h.symm
        · exfalso
          have hin : t.Index ∈ ts.map Task.Index := List.mem_map_of_mem Task.Index h
          rw [List.map_cons] at hnd
          exact (List.nodup_cons.mp hnd).1 (h0 ▸ hin)
      subst ht0
      exact ⟨_, updTaskList_cons_eq content ch t0 ts⟩
    · have htmem : t ∈ ts := by
        rcases List.mem_cons.mp hmem with h | h
        · exact absurd (congrArg Task.Index h.symm) h0
        · exact h
      have hnd2 : (ts.map Task.Index).Nodup := by
        rw [List.map_cons] at hnd
        exact (List.nodup_cons.mp hnd).2
      obtain ⟨ts2, hts2⟩ := updTaskList_found content ch t ts htmem hnd2
      refine ⟨t0 :: ts2, ?_⟩
      rw [updTaskList_cons_ne content t.Index ch t0 ts h0, hts2]
      rfl

theorem updNotes_found (ch : Bool) (t : Task) :
    ∀ notes : List Note, t ∈ allTasksOf notes → ((allTasksOf notes).map Task.Index).Nodup →
    ∃ j, ∃ hj : j < notes.length, ∃ n1,
      Note.updateTask (notes.get ⟨j, hj⟩) t.Index ch = some n1
      ∧ n1.Content = replFirst t.Text
          (replFirst (if ch then ("[ ]").data else ("[x]").data)
            (if ch then ("[x]").data else ("[ ]").data) t.Text)
          (notes.get ⟨j, hj⟩).Content
      ∧ updNotes t.Index ch notes = some (notes.set j n1)
  | [], hmem, _ => absurd hmem (by simp [allTasksOf])
  | n :: rest, hmem, hnd => by
    have hsplit : allTasksOf (n :: rest) = n.Tasks ++ allTasksOf rest := rfl
    rw [hsplit] at hmem hnd
    rw [List.map_append] at hnd
    have hnd3 := List.nodup_append.mp hnd
    rcases List.mem_append.mp hmem with hh | hh
    · obtain ⟨ts2, hts2⟩ := updTaskList_found n.Content ch t n.Tasks hh hnd3.1
      have hupd : Note.updateTask n t.Index ch
          = some { n with
              Content := replFirst t.Text
                (replFirst (if ch then ("[ ]").data else ("[x]").data)
                  (if ch then ("[x]").data else ("[ ]").data) t.Text) n.Content
              Tasks := ts2 } := by
        show (updTaskList n.Content t.Index ch n.Tasks).map _ = _
        rw [hts2]
        rfl
      refine ⟨0, by simp, _, hupd, rfl, ?_⟩
      show updNotes t.Index ch (n :: rest) = _
      simp only [updNotes, hupd, List.set]
    · have hnone : Note.updateTask n t.Index ch = none := by
        have hall : ∀ tk ∈ n.Tasks, tk.Index ≠ t.Index := by
          intro tk hk heq
          have h1 : tk.Index ∈ n.Tasks.map Task.Index := List.mem_map_of_mem Task.Index hk
          have h2 : t.Index ∈ (allTasksOf rest).map Task.Index :=
            List.mem_map_of_mem Task.Index hh
          exact hnd3.2.2 h1 (heq ▸ h2)
        show (updTaskList n.Content t.Index ch n.Tasks).map _ = _
        rw [updTaskList_none n.Content t.Index ch n.Tasks hall]
        rfl
      obtain ⟨j, hj, n1, hu, hc, hr⟩ := updNotes_found ch t rest hh hnd3.2.1
      refine ⟨j + 1, by simpa using hj, n1, ?_, ?_, ?_⟩
      · simpa using hu
      · simpa using hc
      · show updNotes t.Index ch (n :: rest) = _
        simp only [updNotes, hnone, hr, List.set]
        rfl

/-- C3: a global completion toggle on an id present in the index succeeds,
updates the index row, and propagates into the owning project store exactly
when the recorded literal text still matches some current task there: on a
match the store toggle rewrites the owning note content by substituting the
flipped task line for the first occurrence of its old text; on a miss the
managers (and hence all note contents) are left untouched and no error is
raised. -/
theorem C3_global_toggle_propagation (trs : TRS) (taskID : Int) (completed : Bool)
    (now : Int) (okSave : Bool) (target : GlobalTask) (nm : NM)
    (hfind : (GetGlobalTasks trs.db).find? (fun t => t.ID = taskID) = some target)
    (hnm : lookupNM trs.managers target.FolderPath = some nm)
    (hnodup : ((NM.getAllTasks nm).map Task.Index).Nodup) :
    (UpdateGlobalTaskCompletion trs taskID completed now okSave).2 = true
    ∧ (UpdateGlobalTaskCompletion trs taskID completed now okSave).1.db
        = UpdateTaskCompletion trs.db taskID completed now
    ∧ ((NM.getAllTasks nm).find? (fun u => u.Text = target.Content) = none →
        (UpdateGlobalTaskCompletion trs taskID completed now okSave).1.managers
          = trs.managers)
    ∧ (∀ t, (NM.getAllTasks nm).find? (fun u => u.Text = target.Content) = some t →
        (UpdateGlobalTaskCompletion trs taskID completed now okSave).1.managers
          = setNM trs.managers target.FolderPath (NM.updateTask nm t.Index completed okSave).1
        ∧ ∃ j, ∃ hj : j < nm.notes.length, ∃ n1,
            Note.updateTask (nm.notes.get ⟨j, hj⟩) t.Index completed = some n1
            ∧ n1.Content = replFirst t.Text
                (replFirst (if completed then ("[ ]").data else ("[x]").data)
                  (if completed then ("[x]").data else ("[ ]").data) t.Text)
                (nm.notes.get ⟨j, hj⟩).Content
            ∧ (NM.updateTask nm t.Index completed okSave).1.notes = nm.notes.set j n1) := by
  cases hT : (NM.getAllTasks nm).find? (fun u => u.Text = target.Content) with
  | none =>
    refine ⟨?_, ?_, ?_, ?_⟩
    · simp [UpdateGlobalTaskCompletion, hfind, hnm, hT]
    · simp [UpdateGlobalTaskCompletion, hfind, hnm, hT]
    · intro _
      simp [UpdateGlobalTaskCompletion, hfind, hnm, hT]
    · intro t ht
      simp at ht
  | some t0 =>
    refine ⟨?_, ?_, ?_, ?_⟩
    · simp [UpdateGlobalTaskCompletion, hfind, hnm, hT]
    · simp [UpdateGlobalTaskCompletion, hfind, hnm, hT]
    · intro hc
      simp at hc
    · intro t ht
      have ht0 : t0 = t := Option.some_inj.mp ht
      subst ht0
      constructor
      · simp [UpdateGlobalTaskCompletion, hfind, hnm, hT]
      · have hmemT : t0 ∈ NM.getAllTasks nm := List.mem_of_find?_eq_some hT
        obtain ⟨j, hj, n1, hu, hc, hr⟩ :=
          updNotes_found completed t0 nm.notes hmemT hnodup
        refine ⟨j, hj, n1, hu, hc, ?_⟩
        show ((NM.updateTask nm t0.Index completed okSave).1).notes = _
        unfold NM.updateTask
        rw [hr]
        rw [save_notes]

/-- Concrete registry for the C3 witness: one folder `p` with one persisted
row whose text matches the store's only task. -/
def c3trs : TRS :=
  ⟨⟨[⟨1, ("p").data, 0, true⟩],
    [⟨1, 1, ("notes.md").data, 0, ("[ ] t1").data, false, 0⟩], 2, 2⟩,
   [(("p").data, oneTaskNM)]⟩

def c3target : GlobalTask :=
  ⟨1, 1, ("notes.md").data, 0, ("[ ] t1").data, false, 0, ("p").data⟩

/-- C3 witness: the global toggle on the matching row succeeds and updates the
index row. -/
theorem C3_global_toggle_propagation_witness :
    ((GetGlobalTasks c3trs.db).find? (fun t => t.ID = 1) = some c3target
      ∧ lookupNM c3trs.managers c3target.FolderPath = some oneTaskNM
      ∧ ((NM.getAllTasks oneTaskNM).map Task.Index).Nodup)
    ∧ ((UpdateGlobalTaskCompletion c3trs 1 true 5 true).2 = true
      ∧ (UpdateGlobalTaskCompletion c3trs 1 true 5 true).1.db
          = UpdateTaskCompletion c3trs.db 1 true 5) :=
  ⟨⟨by decide, by decide, by decide⟩,
   ⟨(C3_global_toggle_propagation c3trs 1 true 5 true c3target oneTaskNM
       (by decide) (by decide) (by decide)).1,
    (C3_global_toggle_propagation c3trs 1 true 5 true c3target oneTaskNM
       (by decide) (by decide) (by decide)).2.1⟩⟩

/-! ## Character and scan lemmas for the parser (claims C5 and C9) -/

theorem goSpace_ne_lbrack {c : Char} (h : goSpace c = true) : ¬ c = '[' := by
  intro he
  rw [he] at h
  exact absurd h (by decide)

theorem goSpace_ne_rbrack {c : Char} (h : goSpace c = true) : ¬ c = ']' := by
  intro he
  rw [he] at h
  exact absurd h (by decide)

theorem parseT_cons3 (a c d : Char) (s2 : Str) :
    parseT (a :: c :: d :: s2)
      = if a = '[' ∧ d = ']' then
          (if c = 'x' ∨ c = 'X' ∨ c = ' ' then
            (c == 'x' || c == 'X',
              trimS (List.takeWhile (fun ch => ch != '\n') (a :: c :: d :: s2)))
              :: parseT s2
          else parseT (c :: d :: s2))
        else parseT (c :: d :: s2) := rfl

theorem parseT_skip (a : Char) (s : Str) (h : ¬ a = '[') : parseT (a :: s) = parseT s := by
  match s with
  | [] => rfl
  | [c] => rfl
  | c :: d :: s2 =>
    rw [parseT_cons3, if_neg]
    intro hc
    exact h hc.1

theorem parseT_allSpace : ∀ s : Str, (∀ ch ∈ s, goSpace ch = true) → parseT s = []
  | [], _ => rfl
  | a :: s, h => by
    rw [parseT_skip a s (goSpace_ne_lbrack (h a (by simp)))]
    exact parseT_allSpace s (fun ch hc => h ch (by simp [hc]))

theorem parseT_one_then_space (c : Char) : ∀ s : Str, (∀ ch ∈ s, goSpace ch = true) →
    parseT (c :: s) = []
  | [], _ => rfl
  | [_], _ => rfl
  | e :: f :: s2, h => by
    rw [parseT_cons3, if_neg, parseT_allSpace (e :: f :: s2) h]
    intro hc
    exact goSpace_ne_rbrack (h f (by simp)) hc.2

theorem takeWhile_append_all {p : Char → Bool} : ∀ x y : Str, (∀ ch ∈ x, p ch = true) →
    List.takeWhile p (x ++ y) = x ++ List.takeWhile p y
  | [], _, _ => rfl
  | a :: x, y, h => by
    have ha : p a = true := h a (by simp)
    simp only [List.cons_append, List.takeWhile_cons, ha, if_true]
    rw [takeWhile_append_all x y (fun ch hc => h ch (by simp [hc]))]

theorem takeWhile_all {p : Char → Bool} (x : Str) (h : ∀ ch ∈ x, p ch = true) :
    List.takeWhile p x = x := by
  have := takeWhile_append_all x [] h
  simpa using this

theorem takeWhile_append_not {p : Char → Bool} : ∀ x y : Str, x.all p = false →
    List.takeWhile p (x ++ y) = List.takeWhile p x
  | [], _, hx => by cases hx
  | a :: x, y, hx => by
    cases ha : p a with
    | false => simp [List.takeWhile_cons, ha]
    | true =>
      have hx2 : x.all p = false := by
        rw [List.all_cons, ha] at hx
        simpa using hx
      simp only [List.cons_append, List.takeWhile_cons, ha, if_true]
      rw [takeWhile_append_not x y hx2]

theorem mem_of_mem_takeWhile {p : Char → Bool} : ∀ {x : Str} {ch : Char},
    ch ∈ List.takeWhile p x → ch ∈ x := by
  intro x
  induction x with
  | nil => intro ch hc; simp at hc
  | cons a x ih =>
    intro ch hc
    rw [List.takeWhile_cons] at hc
    cases ha : p a with
    | false => rw [ha] at hc; simp at hc
    | true =>
      rw [ha] at hc
      simp only [if_true] at hc
      rcases List.mem_cons.mp hc with h | h
      · simp [h]
      · simp [ih h]

theorem trimRight_cons (a : Char) (s : Str) :
    trimRight (a :: s)
      = if trimRight s = [] then (if goSpace a then [] else [a])
        else a :: trimRight s := rfl

theorem trimRight_allSpace : ∀ w : Str, (∀ ch ∈ w, goSpace ch = true) → trimRight w = []
  | [], _ => rfl
  | a :: w, h => by
    rw [trimRight_cons, trimRight_allSpace w (fun ch hc => h ch (by simp [hc]))]
    simp [h a (by simp)]

theorem trimRight_append_space : ∀ x w : Str, (∀ ch ∈ w, goSpace ch = true) →
    trimRight (x ++ w) = trimRight x
  | [], w, h => by simpa using trimRight_allSpace w h
  | a :: x, w, h => by
    show trimRight (a :: (x ++ w)) = _
    rw [trimRight_cons, trimRight_cons, trimRight_append_space x w h]

theorem trimRight_decomp : ∀ x : Str, ∃ w, x = trimRight x ++ w ∧ ∀ ch ∈ w, goSpace ch = true
  | [] => ⟨[], rfl, by simp⟩
  | a :: x => by
    obtain ⟨w, hw, hsp⟩ := trimRight_decomp x
    rw [trimRight_cons]
    by_cases h0 : trimRight x = []
    · rw [h0] at hw
      simp only [List.nil_append] at hw
      by_cases ha : goSpace a = true
      · refine ⟨a :: w, ?_, ?_⟩
        · rw [if_pos h0, if_pos ha]
          simp [hw]
        · intro ch hc
          rcases List.mem_cons.mp hc with h | h
          · rw [h]; exact ha
          · exact hsp ch h
      · refine ⟨w, ?_, hsp⟩
        rw [if_pos h0, if_neg ha]
        simp [hw]
    · refine ⟨w, ?_, hsp⟩
      rw [if_neg h0, List.cons_append, ← hw]

theorem trimS_append_space (x w : Str) (h : ∀ ch ∈ w, goSpace ch = true) :
    trimS (x ++ w) = trimS x := by
  unfold trimS
  rw [trimRight_append_space x w h]

theorem trimLeft_cons_space (a : Char) (s : Str) (h : goSpace a = true) :
    trimLeft (a :: s) = trimLeft s := by
  simp [trimLeft, h]

theorem parseT_trimLeft : ∀ s : Str, parseT (trimLeft s) = parseT s
  | [] => rfl
  | a :: s => by
    by_cases h : goSpace a = true
    · rw [trimLeft_cons_space a s h, parseT_trimLeft s, parseT_skip a s (goSpace_ne_lbrack h)]
    · simp [trimLeft, h]

theorem parseT_append_space : ∀ u w : Str, (∀ ch ∈ w, goSpace ch = true) →
    parseT (u ++ w) = parseT u
  | [], w, h => by simpa using parseT_allSpace w h
  | [a], w, h => by
    rw [show parseT [a] = [] from rfl]
    exact parseT_one_then_space a w h
  | [a, b], w, h => by
    rw [show parseT [a, b] = [] from rfl]
    match w with
    | [] => rfl
    | e :: w2 =>
      show parseT (a :: b :: e :: w2) = []
      rw [parseT_cons3, if_neg]
      · exact parseT_one_then_space b (e :: w2) h
      · intro hc
        exact goSpace_ne_rbrack (h e (by simp)) hc.2
  | a :: cc :: d :: u3, w, h => by
    show parseT (a :: cc :: d :: (u3 ++ w)) = _
    rw [parseT_cons3 a cc d (u3 ++ w), parseT_cons3 a cc d u3]
    by_cases hcond : a = '[' ∧ d = ']'
    · rw [if_pos hcond, if_pos hcond]
      by_cases hval : cc = 'x' ∨ cc = 'X' ∨ cc = ' '
      · rw [if_pos hval, if_pos hval, parseT_append_space u3 w h]
        have hpa : (a != '\n') = true := by rw [hcond.1]; decide
        have hpd : (d != '\n') = true := by rw [hcond.2]; decide
        have hpc : (cc != '\n') = true := by
          rcases hval with hv | hv | hv <;> rw [hv] <;> decide
        simp only [List.takeWhile_cons, hpa, hpc, hpd, if_true]
        by_cases hall : u3.all (fun ch => ch != '\n') = true
        · rw [takeWhile_append_all u3 w (fun ch hc => List.all_eq_true.mp hall ch hc),
            takeWhile_all u3 (fun ch hc => List.all_eq_true.mp hall ch hc)]
          have hsub : ∀ ch ∈ List.takeWhile (fun ch => ch != '\n') w, goSpace ch = true :=
            fun ch hc => h ch (mem_of_mem_takeWhile hc)
          rw [show a :: cc :: d :: (u3 ++ List.takeWhile (fun ch => ch != '\n') w)
              = (a :: cc :: d :: u3) ++ List.takeWhile (fun ch => ch != '\n') w from by simp]
          rw [trimS_append_space _ _ hsub]
        · rw [takeWhile_append_not u3 w (by simpa using hall)]
      · rw [if_neg hval, if_neg hval]
        exact parseT_append_space (cc :: d :: u3) w h
    · rw [if_neg hcond, if_neg hcond]
      exact parseT_append_space (cc :: d :: u3) w h
termination_by u _ _ => u.length

theorem parseT_trimRight (s : Str) : parseT (trimRight s) = parseT s := by
  obtain ⟨w, hw, hsp⟩ := trimRight_decomp s
  conv_rhs => rw [hw]
  rw [parseT_append_space (trimRight s) w hsp]

theorem parseT_trimS (s : Str) : parseT (trimS s) = parseT s := by
  unfold trimS
  rw [parseT_trimLeft, parseT_trimRight]

theorem leads_append_self : ∀ p r : Str, leads p (p ++ r) = true
  | [], _ => rfl
  | a :: p, r => by simp [leads, leads_append_self p r]

theorem splitFirstLine_append (y : Str) : ∀ x : Str, '\n' ∉ x →
    splitFirstLine (x ++ '\n' :: y) = (x, some y)
  | [], _ => by simp [splitFirstLine]
  | a :: x, h => by
    have ha : ¬ a = '\n' := fun hc => h (by simp [hc])
    show splitFirstLine (a :: (x ++ '\n' :: y)) = _
    simp only [splitFirstLine, if_neg ha]
    rw [splitFirstLine_append y x (fun hc => h (by simp [hc]))]

theorem trimS_nl_wrap (content : Str) :
    trimS ('\n' :: (content ++ ['\n'])) = trimS content := by
  unfold trimS
  rw [show '\n' :: (content ++ ['\n']) = ('\n' :: content) ++ ['\n'] from rfl]
  rw [trimRight_append_space ('\n' :: content) ['\n']
    (by intro ch hc; simp at hc; rw [hc]; decide)]
  rw [trimRight_cons]
  by_cases h0 : trimRight content = []
  · rw [if_pos h0, h0, if_pos (by decide : goSpace '\n' = true)]
  · rw [if_neg h0]
    exact trimLeft_cons_space '\n' (trimRight content) (by decide)

theorem dropLead_append (p r : Str) : dropLead p (p ++ r) = r := by
  unfold dropLead
  rw [if_pos (leads_append_self p r)]
  exact List.drop_left p r

theorem noteFromText_tasks (text now : Str) :
    (noteFromText text now).Tasks
      = parseTasks (match (splitFirstLine text).2 with
          | some r => trimS r
          | none => []) := by
  cases h : matchTs (dropLead ("## ").data (splitFirstLine text).1) with
  | none => simp [noteFromText, h]
  | some p =>
    cases p with
    | mk ts title => simp [noteFromText, h]

/-- C5: the task parser is deterministic (identical content parses to
identical records in identical order — it is a pure function), and parsing is
idempotent through rendering: for a note whose task records are derived from
its content, parsing the rendered form yields back an equal task collection.
The newline-freeness hypotheses say the note header is well formed (as every
note read back from storage is). -/
theorem C5_parse_render_round_trip (n : Note) (now : Str)
    (hts : '\n' ∉ n.Timestamp) (htitle : '\n' ∉ n.Title)
    (hfresh : n.Tasks = parseTasks n.Content) :
    (∀ c1 c2 : Str, c1 = c2 → parseTasks c1 = parseTasks c2)
    ∧ (noteFromText (Note.render n) now).Tasks = n.Tasks := by
  refine ⟨fun c1 c2 hc => hc ▸ rfl, ?_⟩
  have hxnl : '\n' ∉ ("## ").data ++ n.Timestamp
      ++ (if n.Title = [] then [] else (" - ").data ++ n.Title) := by
    intro hc
    rcases List.mem_append.mp hc with hc | hc
    · rcases List.mem_append.mp hc with hc | hc
      · exact absurd hc (by decide)
      · exact hts hc
    · by_cases ht0 : n.Title = []
      · rw [if_pos ht0] at hc
        simp at hc
      · rw [if_neg ht0] at hc
        rcases List.mem_append.mp hc with hc | hc
        · exact absurd hc (by decide)
        · exact htitle hc
  have hrender : Note.render n
      = (("## ").data ++ n.Timestamp
          ++ (if n.Title = [] then [] else (" - ").data ++ n.Title))
        ++ '\n' :: ('\n' :: (n.Content ++ ['\n'])) := by
    unfold Note.render
    simp [List.append_assoc]
  rw [noteFromText_tasks, hrender,
    splitFirstLine_append ('\n' :: (n.Content ++ ['\n'])) _ hxnl]
  show parseTasks (trimS ('\n' :: (n.Content ++ ['\n']))) = n.Tasks
  rw [trimS_nl_wrap]
  rw [hfresh]
  show mkTasks 0 (parseT (trimS n.Content)) = mkTasks 0 (parseT n.Content)
  rw [parseT_trimS]

/-- C5 witness: a concrete freshly-parsed note. -/
theorem C5_parse_render_round_trip_witness :
    ('\n' ∉ (("Demo").data : Str) ∧ '\n' ∉ (("2025-01-07 10:00:00").data : Str)
      ∧ (⟨("Demo").data, ("- [ ] a").data, ("2025-01-07 10:00:00").data,
          parseTasks ("- [ ] a").data⟩ : Note).Tasks
        = parseTasks (⟨("Demo").data, ("- [ ] a").data, ("2025-01-07 10:00:00").data,
          parseTasks ("- [ ] a").data⟩ : Note).Content)
    ∧ (noteFromText
        (Note.render (⟨("Demo").data, ("- [ ] a").data, ("2025-01-07 10:00:00").data,
          parseTasks ("- [ ] a").data⟩ : Note)) nowS).Tasks
      = (⟨("Demo").data, ("- [ ] a").data, ("2025-01-07 10:00:00").data,
          parseTasks ("- [ ] a").data⟩ : Note).Tasks :=
  ⟨⟨by decide, by decide, by decide⟩,
   (C5_parse_render_round_trip
      (⟨("Demo").data, ("- [ ] a").data, ("2025-01-07 10:00:00").data,
        parseTasks ("- [ ] a").data⟩ : Note) nowS
      (by decide) (by decide) (by decide)).2⟩

theorem replFirst_of_leads (old new s : Str) (h : leads old s = true) :
    replFirst old new s = new ++ s.drop old.length := by
  match s with
  | [] =>
    match old with
    | [] => simp [replFirst]
    | o :: os => cases h
  | a :: s2 => simp [replFirst, h]

theorem replFirst_cons_not (old new : Str) (a : Char) (s : Str)
    (h : leads old (a :: s) = false) :
    replFirst old new (a :: s) = a :: replFirst old new s := by
  simp [replFirst, h]

theorem trimS_cb (c : Char) (l : Str) :
    trimS ('[' :: c :: ']' :: l) = '[' :: c :: ']' :: trimRight l := by
  unfold trimS
  have h1 : trimRight (']' :: l) = ']' :: trimRight l := by
    rw [trimRight_cons]
    by_cases h0 : trimRight l = []
    · rw [if_pos h0, if_neg (by decide : ¬ goSpace ']' = true), h0]
    · rw [if_neg h0]
  have h2 : trimRight (c :: ']' :: l) = c :: ']' :: trimRight l := by
    rw [trimRight_cons, h1, if_neg (by simp)]
  have h3 : trimRight ('[' :: c :: ']' :: l) = '[' :: c :: ']' :: trimRight l := by
    rw [trimRight_cons, h2, if_neg (by simp)]
  rw [h3]
  simp [trimLeft, (by decide : goSpace '[' = false)]

theorem parseT_head_shape : ∀ (s : Str) (b : Bool) (t : Str) (rest : List (Bool × Str)),
    parseT s = (b, t) :: rest →
    ∃ c t2, t = '[' :: c :: ']' :: t2 ∧ (c = 'x' ∨ c = 'X' ∨ c = ' ')
      ∧ b = (c == 'x' || c == 'X')
  | [], _, _, _, h => absurd h (by simp [parseT])
  | [_], _, _, _, h => absurd h (by simp [parseT])
  | [_, _], _, _, _, h => absurd h (by simp [parseT])
  | a :: cc :: d :: s2, b, t, rest, h => by
    rw [parseT_cons3] at h
    by_cases hcond : a = '[' ∧ d = ']'
    · rw [if_pos hcond] at h
      by_cases hval : cc = 'x' ∨ cc = 'X' ∨ cc = ' '
      · rw [if_pos hval] at h
        obtain ⟨ha, hd⟩ := hcond
        subst ha
        subst hd
        have hpc : (cc != '\n') = true := by
          rcases hval with hv | hv | hv <;> rw [hv] <;> decide
        rw [List.takeWhile_cons, List.takeWhile_cons, List.takeWhile_cons] at h
        rw [if_pos (by decide : (('[' : Char) != '\n') = true)] at h
        rw [if_pos hpc, if_pos (by decide : ((']' : Char) != '\n') = true)] at h
        rw [trimS_cb] at h
        have hhead := (List.cons_eq_cons.mp h).1
        refine ⟨cc, trimRight (List.takeWhile (fun ch => ch != '\n') s2), ?_, hval, ?_⟩
        · exact (congrArg Prod.snd hhead).symm
        · exact (congrArg Prod.fst hhead).symm
      · rw [if_neg hval] at h
        exact parseT_head_shape (cc :: d :: s2) b t rest h
    · rw [if_neg hcond] at h
      exact parseT_head_shape (cc :: d :: s2) b t rest h

theorem mkTasks_map_checked : ∀ (i : Int) (l : List (Bool × Str)),
    (mkTasks i l).map Task.Checked = l.map Prod.fst
  | _, [] => rfl
  | i, (b, t) :: rest => by simp [mkTasks, mkTasks_map_checked (i + 1) rest]

theorem parseT_flip_first (T2 : Str) : ∀ (s : Str) (rest : List (Bool × Str)),
    parseT s = (false, '[' :: ' ' :: ']' :: T2) :: rest →
    parseT (replFirst ('[' :: ' ' :: ']' :: T2) ('[' :: 'x' :: ']' :: T2) s)
      = (true, '[' :: 'x' :: ']' :: T2) :: rest
  | [], _, h => absurd h (by simp [parseT])
  | [_], _, h => absurd h (by simp [parseT])
  | [_, _], _, h => absurd h (by simp [parseT])
  | a :: cc :: d :: s2, rest, h => by
    rw [parseT_cons3] at h
    by_cases hcond : a = '[' ∧ d = ']'
    · obtain ⟨ha, hd⟩ := hcond
      subst ha
      subst hd
      rw [if_pos ⟨rfl, rfl⟩] at h
      by_cases hval : cc = 'x' ∨ cc = 'X' ∨ cc = ' '
      · rw [if_pos hval] at h
        have hpc : (cc != '\n') = true := by
          rcases hval with hv | hv | hv <;> rw [hv] <;> decide
        rw [List.takeWhile_cons, List.takeWhile_cons, List.takeWhile_cons,
          if_pos (by decide : (('[' : Char) != '\n') = true), if_pos hpc,
          if_pos (by decide : ((']' : Char) != '\n') = true), trimS_cb] at h
        injection h with hhead htail
        have hb : (cc == 'x' || cc == 'X') = false := congrArg Prod.fst hhead
        have htxt : '[' :: cc :: ']' :: trimRight (List.takeWhile (fun ch => ch != '\n') s2)
            = '[' :: ' ' :: ']' :: T2 := congrArg Prod.snd hhead
        have hcc : cc = ' ' := by
          rcases hval with hv | hv | hv
          · rw [hv] at hb; exact absurd hb (by decide)
          · rw [hv] at hb; exact absurd hb (by decide)
          · exact hv
        subst hcc
        have hT2 : trimRight (List.takeWhile (fun ch => ch != '\n') s2) = T2 := by
          simpa using htxt
        obtain ⟨w2, hw2, hsp2⟩ :=
          trimRight_decomp (List.takeWhile (fun ch => ch != '\n') s2)
        rw [hT2] at hw2
        have hs2 : s2 = T2 ++ (w2 ++ List.dropWhile (fun ch => ch != '\n') s2) := by
          conv_lhs => rw [← List.takeWhile_append_dropWhile
            (p := fun ch => ch != '\n') (l := s2)]
          rw [hw2, List.append_assoc]
        have hleads : leads ('[' :: ' ' :: ']' :: T2) ('[' :: ' ' :: ']' :: s2) = true := by
          have hl : leads T2 s2 = true := by
            rw [hs2]
            exact leads_append_self T2 _
          simp [leads, hl]
        rw [replFirst_of_leads _ _ _ hleads]
        have hdrop : ('[' :: ' ' :: ']' :: s2).drop ('[' :: ' ' :: ']' :: T2).length
            = w2 ++ List.dropWhile (fun ch => ch != '\n') s2 := by
          simp only [List.length_cons, List.drop_succ_cons]
          conv_lhs => rw [hs2]
          exact List.drop_left T2 _
        rw [hdrop]
        have hback : ('[' :: 'x' :: ']' :: T2)
              ++ (w2 ++ List.dropWhile (fun ch => ch != '\n') s2)
            = '[' :: 'x' :: ']' :: s2 := by
          rw [show (('[' :: 'x' :: ']' :: T2) : Str)
              ++ (w2 ++ List.dropWhile (fun ch => ch != '\n') s2)
              = '[' :: 'x' :: ']' :: (T2 ++ (w2 ++ List.dropWhile (fun ch => ch != '\n') s2))
            from by simp, ← hs2]
        rw [hback]
        rw [parseT_cons3, if_pos ⟨rfl, rfl⟩, if_pos (Or.inl rfl)]
        rw [List.takeWhile_cons, List.takeWhile_cons, List.takeWhile_cons,
          if_pos (by decide : (('[' : Char) != '\n') = true),
          if_pos (by decide : (('x' : Char) != '\n') = true),
          if_pos (by decide : ((']' : Char) != '\n') = true), trimS_cb, hT2, htail]
        rfl
      · rw [if_neg hval] at h
        have hih := parseT_flip_first T2 (cc :: ']' :: s2) rest h
        have hcc : ¬ cc = ' ' := fun hc => hval (Or.inr (Or.inr hc))
        have hccb : (' ' == cc) = false := by
          rw [beq_eq_false_iff_ne]
          exact fun hc => hcc hc.symm
        have hnl : leads ('[' :: ' ' :: ']' :: T2) ('[' :: cc :: ']' :: s2) = false := by
          simp [leads, hccb]
        rw [replFirst_cons_not _ _ _ _ hnl]
        by_cases hl2 : leads ('[' :: ' ' :: ']' :: T2) (cc :: ']' :: s2) = true
        · rw [replFirst_of_leads _ _ _ hl2] at hih ⊢
          simp only [List.cons_append] at hih ⊢
          rw [parseT_cons3, if_neg (fun hx => absurd hx.2 (by decide))]
          exact hih
        · have hl2f : leads ('[' :: ' ' :: ']' :: T2) (cc :: ']' :: s2) = false := by
            cases hb2 : leads ('[' :: ' ' :: ']' :: T2) (cc :: ']' :: s2)
            · rfl
            · exact absurd hb2 hl2
          have hl3 : leads ('[' :: ' ' :: ']' :: T2) (']' :: s2) = false := by
            simp [leads]
          rw [replFirst_cons_not _ _ _ _ hl2f, replFirst_cons_not _ _ _ _ hl3] at hih ⊢
          rw [parseT_cons3, if_pos ⟨rfl, rfl⟩, if_neg hval]
          exact hih
    · rw [if_neg hcond] at h
      have hih := parseT_flip_first T2 (cc :: d :: s2) rest h
      by_cases ha : a = '['
      · subst ha
        have hd : ¬ d = ']' := fun hc => hcond ⟨rfl, hc⟩
        have hdb : (']' == d) = false := by
          rw [beq_eq_false_iff_ne]
          exact fun hc => hd hc.symm
        have hnl : leads ('[' :: ' ' :: ']' :: T2) ('[' :: cc :: d :: s2) = false := by
          simp [leads, hdb]
        rw [replFirst_cons_not _ _ _ _ hnl]
        by_cases hl2 : leads ('[' :: ' ' :: ']' :: T2) (cc :: d :: s2) = true
        · rw [replFirst_of_leads _ _ _ hl2] at hih ⊢
          simp only [List.cons_append] at hih ⊢
          rw [parseT_cons3, if_neg (fun hx => absurd hx.2 (by decide))]
          exact hih
        · have hl2f : leads ('[' :: ' ' :: ']' :: T2) (cc :: d :: s2) = false := by
            cases hb2 : leads ('[' :: ' ' :: ']' :: T2) (cc :: d :: s2)
            · rfl
            · exact absurd hb2 hl2
          rw [replFirst_cons_not _ _ _ _ hl2f] at hih ⊢
          by_cases hl3 : leads ('[' :: ' ' :: ']' :: T2) (d :: s2) = true
          · rw [replFirst_of_leads _ _ _ hl3] at hih ⊢
            simp only [List.cons_append] at hih ⊢
            rw [parseT_cons3, if_neg (fun hx => absurd hx.2 (by decide))]
            exact hih
          · have hl3f : leads ('[' :: ' ' :: ']' :: T2) (d :: s2) = false := by
              cases hb3 : leads ('[' :: ' ' :: ']' :: T2) (d :: s2)
              · rfl
              · exact absurd hb3 hl3
            rw [replFirst_cons_not _ _ _ _ hl3f] at hih ⊢
            rw [parseT_cons3, if_neg (fun hx => hd hx.2)]
            exact hih
      · have hab : ('[' == a) = false := by
          rw [beq_eq_false_iff_ne]
          exact fun hc => ha hc.symm
        have hnl : leads ('[' :: ' ' :: ']' :: T2) (a :: cc :: d :: s2) = false := by
          simp [leads, hab]
        rw [replFirst_cons_not _ _ _ _ hnl, parseT_skip a _ ha]
        exact hih
termination_by s _ _ => s.length

/-- C9: `Note.UpdateTask` flips the checkbox by substituting for the first
occurrence of the task's literal line text in the note content.  For a
freshly-parsed note whose two (unchecked) tasks carry identical literal text,
toggling the second task's index therefore flips the marker at the first
occurrence in the content while the second task's cached `Checked` flag is the
one updated: re-parsing the new content yields checked-flags `[true, false]`
but the cached records say `[false, true]` — the two views diverge. -/
theorem C9_duplicate_text_divergence (n : Note) (T : Str)
    (hfresh : n.Tasks = parseTasks n.Content)
    (hparse : parseT n.Content = [(false, T), (false, T)]) :
    (Note.updateTask n 1 true).map Note.Content
      = some (replFirst T (replFirst (("[ ]").data) (("[x]").data) T) n.Content)
    ∧ (Note.updateTask n 1 true).map (fun m => m.Tasks.map Task.Checked)
      = some [false, true]
    ∧ (Note.updateTask n 1 true).map (fun m => (parseTasks m.Content).map Task.Checked)
      = some [true, false]
    ∧ ¬ (Note.updateTask n 1 true).map (fun m => m.Tasks.map Task.Checked)
      = (Note.updateTask n 1 true).map (fun m => (parseTasks m.Content).map Task.Checked) := by
  obtain ⟨c, T2, hT, hcval, hb⟩ :=
    parseT_head_shape n.Content false T [(false, T)] hparse
  have hc : c = ' ' := by
    rcases hcval with hv | hv | hv
    · rw [hv] at hb; exact absurd hb (by decide)
    · rw [hv] at hb; exact absurd hb (by decide)
    · exact hv
  subst hc
  subst hT
  have htasks : n.Tasks = [⟨0, false, '[' :: ' ' :: ']' :: T2⟩,
      ⟨1, false, '[' :: ' ' :: ']' :: T2⟩] := by
    rw [hfresh, parseTasks, hparse]
    simp [mkTasks]
  have hnew : replFirst (("[ ]").data) (("[x]").data) ('[' :: ' ' :: ']' :: T2)
      = '[' :: 'x' :: ']' :: T2 := by
    rw [replFirst_of_leads _ _ _ (by simp [leads])]
    rfl
  have hupd : Note.updateTask n 1 true
      = some { n with
          Content := replFirst ('[' :: ' ' :: ']' :: T2) ('[' :: 'x' :: ']' :: T2) n.Content
          Tasks := [⟨0, false, '[' :: ' ' :: ']' :: T2⟩,
            ⟨1, true, '[' :: 'x' :: ']' :: T2⟩] } := by
    unfold Note.updateTask
    rw [htasks]
    simp only [updTaskList, if_neg (by decide : ¬ ((0 : Int) = 1)),
      if_pos (rfl : (1 : Int) = 1), if_pos rfl, Option.map_map]
    simp [hnew]
  have hflip := parseT_flip_first T2 n.Content [(false, '[' :: ' ' :: ']' :: T2)] hparse
  have h2 : (Note.updateTask n 1 true).map (fun m => m.Tasks.map Task.Checked)
      = some [false, true] := by
    rw [hupd]
    rfl
  have h3 : (Note.updateTask n 1 true).map
      (fun m => (parseTasks m.Content).map Task.Checked) = some [true, false] := by
    rw [hupd]
    show some ((parseTasks (replFirst ('[' :: ' ' :: ']' :: T2)
        ('[' :: 'x' :: ']' :: T2) n.Content)).map Task.Checked) = _
    rw [parseTasks, hflip, mkTasks_map_checked]
    rfl
  refine ⟨?_, h2, h3, ?_⟩
  · rw [hupd, hnew]
    rfl
  · rw [h2, h3]
    simp

/-- A freshly-parsed note with two identical unchecked task lines (C9
witness). -/
def dupNote : Note :=
  ⟨("A").data, ("- [ ] a\n- [ ] a").data, nowS, parseTasks ("- [ ] a\n- [ ] a").data⟩

/-- C9 witness: toggling index 1 of the duplicate-text note updates the cached
flags to `[false, true]` while the content re-parses to `[true, false]`. -/
theorem C9_duplicate_text_divergence_witness :
    (dupNote.Tasks = parseTasks dupNote.Content
      ∧ parseT dupNote.Content = [(false, ("[ ] a").data), (false, ("[ ] a").data)])
    ∧ ((Note.updateTask dupNote 1 true).map (fun m => m.Tasks.map Task.Checked)
        = some [false, true]
      ∧ (Note.updateTask dupNote 1 true).map
          (fun m => (parseTasks m.Content).map Task.Checked)
        = some [true, false]) :=
  ⟨⟨by decide, by decide⟩,
   ⟨(C9_duplicate_text_divergence dupNote (("[ ] a").data)
       (by decide) (by decide)).2.1,
    (C9_duplicate_text_divergence dupNote (("[ ] a").data)
       (by decide) (by decide)).2.2.1⟩⟩

end NoteFlow
